import Mathlib

/-!
Shallow embedding of the `ulipsync-profile-gen` Rust crate
(`src/lib.rs`, `src/algorithm.rs`, `src/mfcc.rs`), with theorems checking the
natural-language specification against it.

Modelling conventions:
* Rust `f32` arithmetic is modelled exactly: the purely rational parts
  (`downsample`, `pre_emphasis`, the FIR kernel-length computation) over an
  arbitrary linear ordered field with a floor (instantiated at `ℚ` for
  concrete evaluation and at `ℝ` inside the pipeline), and the transcendental
  parts (`to_mel`, `to_hz`, `hamming`, `dct`, ...) over `ℝ`.
* `rustfft`'s FFT plan (an external crate) is passed as an explicit function
  parameter, and the store (`lib.rs`) receives the per-chunk feature
  extraction as an explicit function parameter together with the `is_finite`
  test on scalars, so the store-level theorems hold for every possible
  extraction result; the `f32` pipeline itself is modelled separately over
  `ℝ`.
* `Vec<f32>` becomes `List`, the `HashMap<String, _>` becomes an association
  list, in-place mutation becomes explicit state passing, and `napi::Result`
  becomes an explicit `Except` component of the returned pair.
* `serde_json::to_string_pretty` is external; `finish` is modelled as
  producing the `OutputJson` document value it serializes.
-/

namespace ULipSync

/-- `const MFCC_SIZE: usize = 12;` — src/lib.rs line 11. -/
def MFCC_SIZE : Nat := 12

/-- `enum CompareMethod` — src/lib.rs lines 45-50. -/
inductive CompareMethod
  | l1Norm
  | l2Norm
  | cosineSimilarity
  deriving DecidableEq

/-- `CompareMethod::as_u32` — src/lib.rs lines 52-60. -/
def CompareMethod.as_u32 : CompareMethod → Nat
  | .l1Norm => 0
  | .l2Norm => 1
  | .cosineSimilarity => 2

/-- Rust `f32::round_ties_even` on an exact-arithmetic carrier: round to the
nearest integer, ties going to the even integer. -/
def roundTiesEven {K : Type} [LinearOrderedField K] [FloorRing K] (x : K) : ℤ :=
  if x - ⌊x⌋ < 1 / 2 then ⌊x⌋
  else if 1 / 2 < x - ⌊x⌋ then ⌊x⌋ + 1
  else if Even ⌊x⌋ then ⌊x⌋ else ⌊x⌋ + 1

/-- The kernel-length computation of `low_pass_filter` — src/algorithm.rs
lines 40-51: `range_n = range / sample_rate`,
`n = (3.1 / range_n).round_ties_even() as i32`, then
`if ((n + 1) % 2) == 0 { n += 1; }`, and `blen = if n > 0 { n } else { 0 }`.
The `f32` literal `3.1` is modelled by the exact rational `31 / 10` (the
nearest `f32` is `3.0999999046…`; the parity logic below is unaffected except
within one ulp of a rounding tie).  The saturation of the `as i32` cast at
`i32::MAX` is not modelled: it needs `3.1 / range_n > 2³¹`, far outside the
pipeline's range (there `range_n = 500 / inputRate ≥ 500 / 2³²`). -/
def lowPassKernelLen {K : Type} [LinearOrderedField K] [FloorRing K]
    (sample_rate range : K) : ℕ :=
  let range_n := range / sample_rate
  let n0 := roundTiesEven ((31 : K) / 10 / range_n)
  let n1 := if (n0 + 1) % 2 = 0 then n0 + 1 else n0
  if 0 < n1 then n1.toNat else 0

/-- `downsample` — src/algorithm.rs lines 57-86.  `out.clear()` plus the three
branches: pass-through when `sample_rate <= target_sample_rate`, decimation
when `sample_rate.is_multiple_of(target_sample_rate)` (for `rhs = 0` that Rust
method returns `self == 0`, which matches `(0 ∣ n) ↔ n = 0`), and otherwise
the fractional-ratio branch in which `i1 = i0.min(input.len().saturating_sub(1))`
(the source comment notes it is *not* `i0 + 1`). -/
def downsample {K : Type} [LinearOrderedField K] [FloorRing K]
    (input : List K) (sample_rate target_sample_rate : ℕ) : List K :=
  if sample_rate ≤ target_sample_rate then input
  else if target_sample_rate ∣ sample_rate then
    let skip := sample_rate / target_sample_rate
    (List.range (input.length / skip)).map (fun i => input.getD (i * skip) 0)
  else
    let df : K := (sample_rate : K) / (target_sample_rate : K)
    let out_len := (roundTiesEven ((input.length : K) / df)).toNat
    (List.range out_len).map (fun (j : ℕ) =>
      let f_index := df * (j : K)
      let i0 := (⌊f_index⌋).toNat
      let i1 := min i0 (input.length - 1)
      let t := f_index - (i0 : K)
      input.getD i0 0 * (1 - t) + input.getD i1 0 * t)

/-- Modelled from the spec (§4.1, for comparison with `downsample`): the
fractional branch "each output sample linearly interpolated between the two
distinct source samples at indices floor(ratio*j) and floor(ratio*j)+1". The
other two branches are as in the code. -/
def downsampleSpecInterp {K : Type} [LinearOrderedField K] [FloorRing K]
    (input : List K) (sample_rate target_sample_rate : ℕ) : List K :=
  if sample_rate ≤ target_sample_rate then input
  else if target_sample_rate ∣ sample_rate then
    let skip := sample_rate / target_sample_rate
    (List.range (input.length / skip)).map (fun i => input.getD (i * skip) 0)
  else
    let df : K := (sample_rate : K) / (target_sample_rate : K)
    let out_len := (roundTiesEven ((input.length : K) / df)).toNat
    (List.range out_len).map (fun (j : ℕ) =>
      let f_index := df * (j : K)
      let i0 := (⌊f_index⌋).toNat
      let i1 := i0 + 1
      let t := f_index - (i0 : K)
      input.getD i0 0 * (1 - t) + input.getD i1 0 * t)

/-- `pre_emphasis` — src/algorithm.rs lines 88-92:
`for i in (1..data.len()).rev() { data[i] -= coeff * data[i - 1] }`,
an in-place loop over the indices `len-1, len-2, …, 1` in that order. -/
def pre_emphasis {K : Type} [Ring K] (data : List K) (coeff : K) : List K :=
  ((List.range' 1 (data.length - 1)).reverse).foldl
    (fun d i => d.set i (d.getD i 0 - coeff * d.getD (i - 1) 0)) data

section Store

variable {V : Type}

/-- The capped push performed per accepted feature vector — src/lib.rs lines
147-152: `entry_list.push(v)` followed by
`if entry_list.len() > self.mfcc_data_count { entry_list.drain(0..overflow) }`. -/
def pushCap (cap : ℕ) (l : List V) (v : V) : List V :=
  let l' := l ++ [v]
  if cap < l'.length then l'.drop (l'.length - cap) else l'

/-- `HashMap` lookup, on the association-list model of
`entries: HashMap<String, Vec<MfccCalibrationData>>`. -/
def lookupEntry {β : Type} : List (String × β) → String → Option β
  | [], _ => none
  | p :: rest, label => if p.1 = label then some p.2 else lookupEntry rest label

/-- `HashMap` insert-or-replace, on the association-list model (a fresh key is
appended; an existing key's value is replaced). -/
def setEntry {β : Type} : List (String × β) → String → β → List (String × β)
  | [], label, v => [(label, v)]
  | p :: rest, label, v =>
    if p.1 = label then (label, v) :: rest else p :: setEntry rest label v

/-- `self.entries.entry(name).or_default()` followed by the capped push —
src/lib.rs lines 145-152, for a single accepted feature vector. -/
def storeInsert (cap : ℕ) (es : List (String × List (List V)))
    (label : String) (v : List V) : List (String × List (List V)) :=
  setEntry es label (pushCap cap ((lookupEntry es label).getD []) v)

/-- The frame-segmentation loop of `add_sample` — src/lib.rs lines 115-126:
starting from `start`, take `min(start + sc, total) - start` samples, keep the
slice only when it is a full `sc`-sample frame, advance `start` by `sc`.  The
source loop does not terminate when `sc = 0` (it would push empty slices
forever); the model uses fuel, which is sufficient whenever `sc > 0`. -/
def chunkAux (audio : List V) (sc : ℕ) : ℕ → ℕ → List (List V)
  | _, 0 => []
  | start, fuel + 1 =>
    if start < audio.length then
      let e := min (start + sc) audio.length
      let slice := (audio.drop start).take (e - start)
      if e - start = sc then slice :: chunkAux audio sc (start + sc) fuel
      else chunkAux audio sc (start + sc) fuel
    else []

/-- The `chunk_list` computed by `add_sample` — src/lib.rs lines 111-127:
one chunk when the audio is exactly one frame long, the segmentation loop when
it is longer, and no chunks when it is shorter. -/
def chunkList (audio : List V) (sc : ℕ) : List (List V) :=
  if audio.length = sc then [audio]
  else if sc < audio.length then chunkAux audio sc 0 audio.length
  else []

/-- `struct ProfileGenerator` — src/lib.rs lines 62-71. -/
structure PGState (V : Type) where
  target_sample_rate : ℕ
  mel_filter_bank_channels : ℕ
  compare_method : CompareMethod
  entries : List (String × List (List V))
  mfcc_data_count : ℕ
  sample_count : ℕ
  use_standardization : Bool

/-- The `napi` error surfaced by `add_sample` (`Status::InvalidArg`). -/
inductive AddError
  | invalidArg
  deriving DecidableEq

/-- `ProfileGenerator::add_sample` — src/lib.rs lines 99-156.  The call to
`mfcc::extract_mfcc` is the explicit parameter `extract` (argument order as at
the call site: chunk, input sample rate, target sample rate, mel channels) and
`f32::is_finite` is the explicit parameter `isFinite` on scalars.  Returns the
post-state and the `Result<()>`. -/
def add_sample (isFinite : V → Bool) (extract : List V → ℕ → ℕ → ℕ → List V)
    (s : PGState V) (audio : List V) (phoneme_name : String)
    (input_sample_rate : ℕ) : PGState V × Except AddError Unit :=
  if audio.isEmpty then (s, Except.error AddError.invalidArg)
  else
    let chunk_list := chunkList audio s.sample_count
    let new_entries := chunk_list.foldl (fun es chunk =>
      let mfcc_features :=
        extract chunk input_sample_rate s.target_sample_rate
          s.mel_filter_bank_channels
      if mfcc_features.any (fun v => !(isFinite v)) then es
      else storeInsert s.mfcc_data_count es phoneme_name mfcc_features)
      s.entries
    ({ s with entries := new_entries }, Except.ok ())

/-- `struct OutputJson` — src/lib.rs lines 25-43 (an `MfccEntry` is modelled
as its name paired with its calibration-data list). -/
structure OutputJson (V : Type) where
  mfccNum : ℕ
  mfccDataCount : ℕ
  melFilterBankChannels : ℕ
  targetSampleRate : ℕ
  sampleCount : ℕ
  useStandardization : ℕ
  compareMethod : ℕ
  mfccs : List (String × List (List V))

/-- `ProfileGenerator::finish` — src/lib.rs lines 159-186: build the export
document from the configuration and all entries, clear `self.entries`, return
the document (its `serde_json` pretty-printing is external to the model). -/
def finish (s : PGState V) : OutputJson V × PGState V :=
  ({ mfccNum := MFCC_SIZE
     mfccDataCount := s.mfcc_data_count
     melFilterBankChannels := s.mel_filter_bank_channels
     targetSampleRate := s.target_sample_rate
     sampleCount := s.sample_count
     useStandardization := if s.use_standardization then 1 else 0
     compareMethod := s.compare_method.as_u32
     mfccs := s.entries },
   { s with entries := [] })

/-- The feature vectors of one `add_sample` call that pass the finiteness
check of src/lib.rs lines 137-139 (a vector is skipped iff some element fails
`is_finite`), in chunk order. -/
def acceptedVecs (isFinite : V → Bool) (extract : List V → ℕ → ℕ → ℕ → List V)
    (sc tsr ch : ℕ) (audio : List V) (rate : ℕ) : List (List V) :=
  ((chunkList audio sc).map (fun c => extract c rate tsr ch)).filter
    (fun v => !(v.any (fun x => !(isFinite x))))

/-- The feature vectors actually inserted by one `add_sample` call: none when
the audio is empty (early `InvalidArg` return), otherwise the accepted
vectors. -/
def callAccepted (isFinite : V → Bool) (extract : List V → ℕ → ℕ → ℕ → List V)
    (sc tsr ch : ℕ) (audio : List V) (rate : ℕ) : List (List V) :=
  if audio.isEmpty then []
  else acceptedVecs isFinite extract sc tsr ch audio rate

/-- A sequence of `add_sample` calls (audio, label, input sample rate),
threading the generator state and discarding each call's `Result`. -/
def runAddSamples (isFinite : V → Bool)
    (extract : List V → ℕ → ℕ → ℕ → List V) (s : PGState V)
    (calls : List (List V × String × ℕ)) : PGState V :=
  calls.foldl (fun t c => (add_sample isFinite extract t c.1 c.2.1 c.2.2).1) s

/-- All vectors inserted under a run of `add_sample` calls, computed with the
(run-invariant) configuration of the starting state. -/
def runAccepted (isFinite : V → Bool)
    (extract : List V → ℕ → ℕ → ℕ → List V) (s : PGState V)
    (calls : List (List V × String × ℕ)) : List (List V) :=
  (calls.map (fun c =>
    callAccepted isFinite extract s.sample_count s.target_sample_rate
      s.mel_filter_bank_channels c.1 c.2.2)).flatten

end Store

section DSP

/-- `get_max_value` — src/algorithm.rs lines 5-8:
`slice.iter().map(|&s| s.abs()).fold(0.0, f32::max)`. -/
noncomputable def get_max_value (slice : List ℝ) : ℝ :=
  (slice.map (fun sample => |sample|)).foldl max 0

/-- `normalize` — src/algorithm.rs lines 10-18: scale every sample by
`peak / m` when `m = get_max_value(data)` exceeds `f32::EPSILON = 2⁻²³`. -/
noncomputable def normalize (data : List ℝ) (peak : ℝ) : List ℝ :=
  let m := get_max_value data
  if (2 : ℝ) ^ (-23 : ℤ) < m then data.map (fun x => x * (peak / m)) else data

/-- The windowed-sinc coefficients filled into `b` by the first loop of
`low_pass_filter_kernel` — src/algorithm.rs lines 23-27. -/
noncomputable def low_pass_filter_kernel_coeffs (cutoff : ℝ) (blen : ℕ) :
    List ℝ :=
  (List.range blen).map (fun (i : ℕ) =>
    let x : ℝ := (i : ℝ) - ((blen : ℝ) - 1) * 0.5
    let ang : ℝ := 2 * Real.pi * cutoff * x
    2 * cutoff * Real.sin ang / ang)

/-- `low_pass_filter_kernel` — src/algorithm.rs lines 20-37: fill `b`, then
the one-sided convolution `data[i] += b[j] * tmp[i - j]` for all `j ≤ i`
(reading the unmodified copy `tmp`). -/
noncomputable def low_pass_filter_kernel (data : List ℝ) (cutoff : ℝ)
    (tmp : List ℝ) (blen : ℕ) : List ℝ :=
  let b := low_pass_filter_kernel_coeffs cutoff blen
  data.mapIdx (fun i x =>
    x + ∑ j in Finset.range blen,
      if j ≤ i then b.getD j 0 * tmp.getD (i - j) 0 else 0)

/-- `low_pass_filter` — src/algorithm.rs lines 39-55: normalized cutoff,
kernel length `lowPassKernelLen`, `tmp = data.to_vec()`, then the kernel. -/
noncomputable def low_pass_filter (data : List ℝ)
    (sample_rate cutoff range : ℝ) : List ℝ :=
  let cutoff_n := (cutoff - range) / sample_rate
  let tmp := data
  let blen := lowPassKernelLen sample_rate range
  low_pass_filter_kernel data cutoff_n tmp blen

/-- `hamming` — src/algorithm.rs lines 94-101:
`x *= 0.54 - 0.46 * cos(2π · i/(n-1))`. -/
noncomputable def hamming (data : List ℝ) : List ℝ :=
  data.mapIdx (fun i x =>
    x * (0.54 - 0.46 * Real.cos (2 * Real.pi * ((i : ℝ) / ((data.length : ℝ) - 1)))))

/-- `fft` — src/algorithm.rs lines 104-124: build the complex vector with the
samples as real parts, run the (external `rustfft`) forward plan when `n > 0`,
and take elementwise moduli.  The plan is the explicit parameter `process`;
returns (complex buffer, magnitude spectrum). -/
noncomputable def fft (process : List (ℝ × ℝ) → List (ℝ × ℝ))
    (data : List ℝ) : List (ℝ × ℝ) × List ℝ :=
  let complex := data.map (fun x => (x, (0 : ℝ)))
  let complex := if 0 < data.length then process complex else complex
  (complex, complex.map (fun c => Real.sqrt (c.1 ^ 2 + c.2 ^ 2)))

/-- `power_to_db` — src/algorithm.rs lines 127-131: `v = 10 * log10(v)`. -/
noncomputable def power_to_db (array : List ℝ) : List ℝ :=
  array.map (fun value => 10 * Real.logb 10 value)

/-- `to_mel` — src/algorithm.rs lines 134-137. -/
noncomputable def to_mel (hz : ℝ) (slaney : Bool) : ℝ :=
  (if slaney then (2595 : ℝ) else 1127) * Real.log (hz / 700 + 1)

/-- `to_hz` — src/algorithm.rs lines 140-143. -/
noncomputable def to_hz (mel : ℝ) (slaney : Bool) : ℝ :=
  700 * (Real.exp (mel / (if slaney then (2595 : ℝ) else 1127)) - 1)

/-- `dct` — src/algorithm.rs lines 145-157: type-II DCT written into `out`
(only the first `spectrum.len()` positions of `out` are written, via
`out.iter_mut().enumerate().take(len)`). -/
noncomputable def dct (spectrum : List ℝ) (out : List ℝ) : List ℝ :=
  let len := spectrum.length
  let a := Real.pi / (len : ℝ)
  out.mapIdx (fun i old =>
    if i < len then
      ∑ j in Finset.range len,
        spectrum.getD j 0 * Real.cos (((j : ℝ) + 0.5) * (i : ℝ) * a)
    else old)

/-- The begin/center/end bin indices computed for filter `n` of
`mel_filter_bank` — src/algorithm.rs lines 162-179:
`i_begin = ceil(f_begin/df) as usize`, `i_center = round(f_center/df)`,
`i_end = floor(f_end/df) as usize` (the `as usize` cast saturates negative
values to 0, modelled by `Int.toNat`). -/
noncomputable def melFilterIndices (len : ℕ) (sample_rate : ℝ)
    (mel_div n : ℕ) : ℕ × ℕ × ℕ :=
  let f_max := sample_rate / 2
  let mel_max := to_mel f_max false
  let n_max := len / 2
  let df := f_max / (n_max : ℝ)
  let d_mel := mel_max / ((mel_div : ℝ) + 1)
  let mel_begin := d_mel * (n : ℝ)
  let mel_center := d_mel * ((n : ℝ) + 1)
  let mel_end := d_mel * ((n : ℝ) + 2)
  let f_begin := to_hz mel_begin false
  let f_center := to_hz mel_center false
  let f_end := to_hz mel_end false
  ((⌈f_begin / df⌉).toNat, (roundTiesEven (f_center / df)).toNat,
    (⌊f_end / df⌋).toNat)

/-- The triangular-weighted accumulation for filter `n` of `mel_filter_bank`
— src/algorithm.rs lines 181-196: iterate the spectrum bins
`skip(i_begin + 1).take(i_end - i_begin)`.  The `usize` subtraction
`i_end - i_begin` wraps around in a release build when `i_end < i_begin`,
which makes `take` consume the whole remaining iterator; the model's count
reflects that (`ℕ` subtraction alone would instead truncate to 0). -/
noncomputable def melFilterSum (spectrum : List ℝ) (sample_rate : ℝ)
    (mel_div n : ℕ) : ℝ :=
  let len := spectrum.length
  let f_max := sample_rate / 2
  let mel_max := to_mel f_max false
  let n_max := len / 2
  let df := f_max / (n_max : ℝ)
  let d_mel := mel_max / ((mel_div : ℝ) + 1)
  let f_begin := to_hz (d_mel * (n : ℝ)) false
  let f_center := to_hz (d_mel * ((n : ℝ) + 1)) false
  let f_end := to_hz (d_mel * ((n : ℝ) + 2)) false
  let ib := (melFilterIndices len sample_rate mel_div n).1
  let ie := (melFilterIndices len sample_rate mel_div n).2.2
  let ic := (melFilterIndices len sample_rate mel_div n).2.1
  let count := if ie < ib then len else ie - ib
  ∑ i in Finset.Ico (ib + 1) (min (ib + 1 + count) len),
    let f := df * (i : ℝ)
    let a := (if i < ic then (f - f_begin) / (f_center - f_begin)
              else (f_end - f) / (f_end - f_center)) / ((f_end - f_begin) * 0.5)
    a * spectrum.getD i 0

/-- `mel_filter_bank` — src/algorithm.rs lines 159-199: for each of the first
`mel_div` positions of `out` (`out.iter_mut().take(mel_div)`), store the
filter's accumulated sum. -/
noncomputable def mel_filter_bank (spectrum : List ℝ) (sample_rate : ℝ)
    (mel_div : ℕ) (out : List ℝ) : List ℝ :=
  out.mapIdx (fun n old =>
    if n < mel_div then melFilterSum spectrum sample_rate mel_div n else old)

/-- Rust `Vec::resize(n, v)` guarded by a length test, as in
src/mfcc.rs lines 50-52 and 60-62. -/
def listResize {α : Type} (l : List α) (n : ℕ) (v : α) : List α :=
  if l.length ≠ n then l.take n ++ List.replicate (n - l.length) v else l

/-- `struct MfccBufferPool` — src/mfcc.rs lines 5-23 (the `downsample` buffer
is named `downsampleBuf` to avoid clashing with the `downsample` function). -/
structure MfccBufferPool where
  downsampleBuf : List ℝ
  fft_complex : List (ℝ × ℝ)
  spectrum : List ℝ
  mel_spectrum : List ℝ
  cepstrum : List ℝ

/-- `extract_mfcc` — src/mfcc.rs lines 25-67: low-pass (cutoff = target/2,
transition 500 Hz), downsample, pre-emphasis (0.97), Hamming window, peak
normalize to 1, magnitude spectrum, resize-and-fill mel spectrum, power to dB,
resize-and-fill cepstrum by DCT, then emit cepstrum coefficients
`skip(1).take(MFCC_SIZE)`.  Returns the updated buffer pool and the `out`
feature vector. -/
noncomputable def extract_mfcc (process : List (ℝ × ℝ) → List (ℝ × ℝ))
    (input : List ℝ) (input_sample_rate target_sample_rate : ℕ)
    (mel_filter_bank_channels : ℕ) (pool : MfccBufferPool) :
    MfccBufferPool × List ℝ :=
  let RANGE : ℝ := 500
  let cutoff : ℝ := (target_sample_rate : ℝ) / 2
  let input1 := low_pass_filter input (input_sample_rate : ℝ) cutoff RANGE
  let ds0 := downsample input1 input_sample_rate target_sample_rate
  let ds1 := pre_emphasis ds0 (0.97 : ℝ)
  let ds2 := hamming ds1
  let ds3 := normalize ds2 1
  let fftRes := fft process ds3
  let mel0 := listResize pool.mel_spectrum mel_filter_bank_channels 0
  let mel1 := mel_filter_bank fftRes.2 (target_sample_rate : ℝ)
    mel_filter_bank_channels mel0
  let mel2 := power_to_db mel1
  let cep0 := listResize pool.cepstrum mel_filter_bank_channels 0
  let cep1 := dct mel2 cep0
  ({ downsampleBuf := ds3, fft_complex := fftRes.1, spectrum := fftRes.2,
     mel_spectrum := mel2, cepstrum := cep1 },
   (cep1.drop 1).take MFCC_SIZE)

end DSP

/-! ### Helper lemmas about the calibration store -/

section StoreLemmas

variable {V : Type}

theorem pushCap_length_le (cap : ℕ) (l : List V) (v : V) :
    (pushCap cap l v).length ≤ cap ∨
      (pushCap cap l v).length = l.length + 1 ∧ l.length + 1 ≤ cap := by
  simp only [pushCap]
  split
  · left; simp; omega
  · right; constructor
    · simp
    · simp at *; omega

theorem pushCap_length_le_cap (cap : ℕ) (l : List V) (v : V) :
    (pushCap cap l v).length ≤ cap := by
  rcases pushCap_length_le cap l v with h | h
  · exact h
  · omega

theorem pushCap_eq_drop (cap : ℕ) (l : List V) (v : V) :
    pushCap cap l v = (l ++ [v]).drop (l.length + 1 - cap) := by
  simp only [pushCap]
  split
  · simp
  · have : l.length + 1 - cap = 0 := by simp at *; omega
    rw [this, List.drop_zero]

theorem foldl_pushCap_eq_drop (cap : ℕ) (vs : List V) :
    ∀ l0 : List V, l0.length ≤ cap →
      vs.foldl (pushCap cap) l0
        = (l0 ++ vs).drop (l0.length + vs.length - cap) := by
  induction vs with
  | nil =>
    intro l0 h
    simp [Nat.sub_eq_zero_of_le h]
  | cons v vs ih =>
    intro l0 h
    rw [List.foldl_cons, pushCap_eq_drop cap l0 v]
    by_cases hc : l0.length + 1 ≤ cap
    · have h0 : l0.length + 1 - cap = 0 := by omega
      rw [h0, List.drop_zero]
      have h1 : (l0 ++ [v]).length ≤ cap := by
        rw [List.length_append, List.length_singleton]; omega
      rw [ih (l0 ++ [v]) h1]
      rw [List.append_assoc]
      simp only [List.singleton_append, List.length_append,
        List.length_singleton, List.length_cons, List.length_nil]
      congr 1
      omega
    · have hlen : ((l0 ++ [v]).drop (l0.length + 1 - cap)).length = cap := by
        rw [List.length_drop, List.length_append, List.length_singleton]; omega
      rw [ih _ (le_of_eq hlen), hlen]
      have hd : l0.length + 1 - cap ≤ (l0 ++ [v]).length := by
        rw [List.length_append, List.length_singleton]; omega
      have e1 : ((l0 ++ [v]) ++ vs).drop (l0.length + 1 - cap)
          = (l0 ++ [v]).drop (l0.length + 1 - cap) ++ vs := by
        rw [List.drop_append_eq_append_drop, Nat.sub_eq_zero_of_le hd,
          List.drop_zero]
      rw [← e1, List.drop_drop, List.append_assoc]
      simp only [List.singleton_append, List.length_append,
        List.length_singleton, List.length_cons, List.length_nil]
      congr 1
      omega

theorem lookupEntry_setEntry_self {β : Type} (es : List (String × β))
    (l : String) (v : β) : lookupEntry (setEntry es l v) l = some v := by
  induction es with
  | nil => simp [setEntry, lookupEntry]
  | cons p rest ih =>
    simp only [setEntry]
    split
    · simp [lookupEntry]
    · simp only [lookupEntry]
      rw [if_neg (by assumption), ih]

theorem mem_setEntry {β : Type} (es : List (String × β)) (l : String) (v : β) :
    ∀ p ∈ setEntry es l v, p = (l, v) ∨ p ∈ es := by
  induction es with
  | nil => simp [setEntry]
  | cons q rest ih =>
    intro p hp
    simp only [setEntry] at hp
    split at hp
    · rcases List.mem_cons.mp hp with h | h
      · left; exact h
      · right; exact List.mem_cons_of_mem _ h
    · rcases List.mem_cons.mp hp with h | h
      · right; rw [h]; exact List.mem_cons_self _ _
      · rcases ih p h with h1 | h1
        · left; exact h1
        · right; exact List.mem_cons_of_mem _ h1

theorem lookupEntry_mem {β : Type} (es : List (String × β)) (l : String)
    (b : β) (h : lookupEntry es l = some b) : (l, b) ∈ es := by
  induction es with
  | nil => simp [lookupEntry] at h
  | cons p rest ih =>
    simp only [lookupEntry] at h
    split at h
    · have hb : p.2 = b := by injection h
      have hl : p.1 = l := by assumption
      have hp : (l, b) = p := by
        cases p
        simp_all
      rw [hp]
      exact List.mem_cons_self _ _
    · exact List.mem_cons_of_mem _ (ih h)

theorem storeInsert_inv (cap : ℕ) (es : List (String × List (List V)))
    (label : String) (v : List V)
    (h : ∀ p ∈ es, p.2.length ≤ cap) :
    ∀ p ∈ storeInsert cap es label v, p.2.length ≤ cap := by
  intro p hp
  rcases mem_setEntry es label _ p hp with h1 | h1
  · rw [h1]
    exact pushCap_length_le_cap _ _ _
  · exact h p h1

theorem foldl_storeInsert_inv (cap : ℕ) (label : String)
    (vs : List (List V)) :
    ∀ es : List (String × List (List V)), (∀ p ∈ es, p.2.length ≤ cap) →
      ∀ p ∈ vs.foldl (fun es v => storeInsert cap es label v) es,
        p.2.length ≤ cap := by
  induction vs with
  | nil => intro es h; exact h
  | cons v vs ih =>
    intro es h
    exact ih _ (storeInsert_inv cap es label v h)

theorem lookupD_foldl_storeInsert (cap : ℕ) (label : String)
    (vs : List (List V)) :
    ∀ es : List (String × List (List V)),
      (lookupEntry (vs.foldl (fun es v => storeInsert cap es label v) es)
          label).getD []
        = vs.foldl (pushCap cap) ((lookupEntry es label).getD []) := by
  induction vs with
  | nil => intro es; rfl
  | cons v vs ih =>
    intro es
    rw [List.foldl_cons, List.foldl_cons, ih]
    simp [storeInsert, lookupEntry_setEntry_self]

theorem foldl_skip_filter {A B E : Type} (f : A → B) (q : B → Bool)
    (g : E → B → E) :
    ∀ (l : List A) (e : E),
      l.foldl (fun es c => if q (f c) then es else g es (f c)) e
        = ((l.map f).filter (fun b => !(q b))).foldl g e := by
  intro l
  induction l with
  | nil => intro e; rfl
  | cons c l ih =>
    intro e
    rw [List.foldl_cons, List.map_cons, List.filter_cons]
    by_cases h : q (f c)
    · simp [h, ih]
    · simp [h, ih]

theorem add_sample_entries (isFinite : V → Bool)
    (extract : List V → ℕ → ℕ → ℕ → List V) (s : PGState V)
    (audio : List V) (L : String) (r : ℕ) (h : audio ≠ []) :
    (add_sample isFinite extract s audio L r).1.entries
      = (acceptedVecs isFinite extract s.sample_count s.target_sample_rate
            s.mel_filter_bank_channels audio r).foldl
          (fun es v => storeInsert s.mfcc_data_count es L v) s.entries := by
  have he : audio.isEmpty = false := by
    cases audio with
    | nil => exact absurd rfl h
    | cons a l => rfl
  simp only [add_sample, he, Bool.false_eq_true, if_false, acceptedVecs]
  exact foldl_skip_filter
    (fun chunk => extract chunk r s.target_sample_rate s.mel_filter_bank_channels)
    (fun b => b.any fun x => !isFinite x)
    (fun es v => storeInsert s.mfcc_data_count es L v)
    (chunkList audio s.sample_count) s.entries

theorem add_sample_config (isFinite : V → Bool)
    (extract : List V → ℕ → ℕ → ℕ → List V) (s : PGState V)
    (audio : List V) (L : String) (r : ℕ) :
    (add_sample isFinite extract s audio L r).1.sample_count = s.sample_count
    ∧ (add_sample isFinite extract s audio L r).1.target_sample_rate
        = s.target_sample_rate
    ∧ (add_sample isFinite extract s audio L r).1.mel_filter_bank_channels
        = s.mel_filter_bank_channels
    ∧ (add_sample isFinite extract s audio L r).1.mfcc_data_count
        = s.mfcc_data_count
    ∧ (add_sample isFinite extract s audio L r).1.compare_method
        = s.compare_method
    ∧ (add_sample isFinite extract s audio L r).1.use_standardization
        = s.use_standardization := by
  simp only [add_sample]
  split <;> simp

theorem add_sample_lookupD (isFinite : V → Bool)
    (extract : List V → ℕ → ℕ → ℕ → List V) (s : PGState V)
    (audio : List V) (L : String) (r : ℕ) :
    (lookupEntry (add_sample isFinite extract s audio L r).1.entries L).getD []
      = (callAccepted isFinite extract s.sample_count s.target_sample_rate
            s.mel_filter_bank_channels audio r).foldl
          (pushCap s.mfcc_data_count) ((lookupEntry s.entries L).getD []) := by
  by_cases h : audio = []
  · subst h
    rfl
  · have he : audio.isEmpty = false := by
      cases audio with
      | nil => exact absurd rfl h
      | cons a l => rfl
    rw [add_sample_entries isFinite extract s audio L r h,
      lookupD_foldl_storeInsert]
    simp [callAccepted, he]

theorem add_sample_entry_inv (isFinite : V → Bool)
    (extract : List V → ℕ → ℕ → ℕ → List V) (s : PGState V)
    (audio : List V) (L : String) (r : ℕ)
    (h : ∀ p ∈ s.entries, p.2.length ≤ s.mfcc_data_count) :
    ∀ p ∈ (add_sample isFinite extract s audio L r).1.entries,
      p.2.length ≤ s.mfcc_data_count := by
  by_cases ha : audio = []
  · subst ha; exact h
  · rw [add_sample_entries isFinite extract s audio L r ha]
    exact foldl_storeInsert_inv _ _ _ _ h

theorem runAddSamples_inv (isFinite : V → Bool)
    (extract : List V → ℕ → ℕ → ℕ → List V)
    (calls : List (List V × String × ℕ)) :
    ∀ s : PGState V, (∀ p ∈ s.entries, p.2.length ≤ s.mfcc_data_count) →
      ∀ p ∈ (runAddSamples isFinite extract s calls).entries,
        p.2.length ≤ s.mfcc_data_count := by
  induction calls with
  | nil => intro s h; exact h
  | cons c rest ih =>
    intro s h
    have hstep : runAddSamples isFinite extract s (c :: rest)
        = runAddSamples isFinite extract
            ((add_sample isFinite extract s c.1 c.2.1 c.2.2).1) rest := rfl
    rw [hstep]
    have hconf := (add_sample_config isFinite extract s c.1 c.2.1 c.2.2).2.2.2.1
    have h1 := add_sample_entry_inv isFinite extract s c.1 c.2.1 c.2.2 h
    have h2 := ih ((add_sample isFinite extract s c.1 c.2.1 c.2.2).1)
      (by rw [hconf]; exact h1)
    rw [hconf] at h2
    exact h2

theorem runAddSamples_lookupD (isFinite : V → Bool)
    (extract : List V → ℕ → ℕ → ℕ → List V) (L : String)
    (calls : List (List V × String × ℕ)) :
    ∀ s : PGState V, (∀ c ∈ calls, c.2.1 = L) →
      (lookupEntry (runAddSamples isFinite extract s calls).entries L).getD []
        = (runAccepted isFinite extract s calls).foldl
            (pushCap s.mfcc_data_count) ((lookupEntry s.entries L).getD []) := by
  induction calls with
  | nil => intro s _; rfl
  | cons c rest ih =>
    intro s hl
    have hc : c.2.1 = L := hl c (List.mem_cons_self _ _)
    subst hc
    have hconf := add_sample_config isFinite extract s c.1 c.2.1 c.2.2
    have hstep : runAddSamples isFinite extract s (c :: rest)
        = runAddSamples isFinite extract
            ((add_sample isFinite extract s c.1 c.2.1 c.2.2).1) rest := rfl
    rw [hstep, ih _ (fun c' hc' => hl c' (List.mem_cons_of_mem _ hc'))]
    rw [add_sample_lookupD isFinite extract s c.1 c.2.1 c.2.2]
    simp only [runAccepted, List.map_cons, List.flatten_cons, hconf.1,
      hconf.2.1, hconf.2.2.1, hconf.2.2.2.1]
    rw [List.foldl_append]

theorem mem_pushCap (cap : ℕ) (l : List V) (v w : V)
    (h : w ∈ pushCap cap l v) : w ∈ l ∨ w = v := by
  simp only [pushCap] at h
  have hm : w ∈ l ++ [v] := by
    split at h
    · exact List.mem_of_mem_drop h
    · exact h
  rcases List.mem_append.mp hm with h1 | h1
  · left; exact h1
  · right; simpa using h1

theorem storeInsert_allFinite (isFinite : V → Bool) (cap : ℕ)
    (es : List (String × List (List V))) (label : String) (v : List V)
    (hv : v.all isFinite = true)
    (h : ∀ p ∈ es, ∀ w ∈ p.2, w.all isFinite = true) :
    ∀ p ∈ storeInsert cap es label v, ∀ w ∈ p.2,
      w.all isFinite = true := by
  intro p hp w hw
  rcases mem_setEntry es label _ p hp with h1 | h1
  · rw [h1] at hw
    rcases mem_pushCap cap _ v w hw with h2 | h2
    · rcases hcur : lookupEntry es label with _ | b
      · rw [hcur] at h2
        simp at h2
      · rw [hcur] at h2
        exact h (label, b) (lookupEntry_mem es label b hcur) w h2
    · rw [h2]; exact hv
  · exact h p h1 w hw

theorem foldl_storeInsert_allFinite (isFinite : V → Bool) (cap : ℕ)
    (label : String) (vs : List (List V)) :
    ∀ es : List (String × List (List V)),
      (∀ v ∈ vs, v.all isFinite = true) →
      (∀ p ∈ es, ∀ w ∈ p.2, w.all isFinite = true) →
      ∀ p ∈ vs.foldl (fun es v => storeInsert cap es label v) es,
        ∀ w ∈ p.2, w.all isFinite = true := by
  induction vs with
  | nil => intro es _ h; exact h
  | cons v vs ih =>
    intro es hvs h
    exact ih _ (fun v' hv' => hvs v' (List.mem_cons_of_mem _ hv'))
      (storeInsert_allFinite isFinite cap es label v
        (hvs v (List.mem_cons_self _ _)) h)

theorem acceptedVecs_allFinite (isFinite : V → Bool)
    (extract : List V → ℕ → ℕ → ℕ → List V) (sc tsr ch : ℕ)
    (audio : List V) (rate : ℕ) :
    ∀ v ∈ acceptedVecs isFinite extract sc tsr ch audio rate,
      v.all isFinite = true := by
  intro v hv
  simp only [acceptedVecs, List.mem_filter] at hv
  have h2 := hv.2
  rw [List.all_eq_true]
  intro x hx
  by_contra hf
  have : v.any (fun x => !(isFinite x)) = true := by
    rw [List.any_eq_true]
    exact ⟨x, hx, by simp [hf]⟩
  rw [this] at h2
  simp at h2

theorem chunkAux_eq (sc : ℕ) (hsc : 0 < sc) (audio : List V) :
    ∀ fuel start, audio.length ≤ start + fuel →
      chunkAux audio sc start fuel
        = (List.range ((audio.length - start) / sc)).map
            (fun i => (audio.drop (start + i * sc)).take sc) := by
  intro fuel
  induction fuel with
  | zero =>
    intro start h
    have h0 : audio.length - start = 0 := by omega
    rw [h0, Nat.zero_div]
    simp [chunkAux]
  | succ fuel ih =>
    intro start h
    by_cases hs : start < audio.length
    · simp only [chunkAux, if_pos hs]
      by_cases hfull : sc ≤ audio.length - start
      · have hmin : min (start + sc) audio.length - start = sc := by omega
        rw [hmin, if_pos rfl]
        rw [ih (start + sc) (by omega)]
        have hq : (audio.length - start) / sc
            = (audio.length - (start + sc)) / sc + 1 := by
          have h2 : audio.length - (start + sc) = (audio.length - start) - sc := by
            omega
          rw [h2]
          exact Nat.div_eq_sub_div hsc hfull
        rw [hq, List.range_succ_eq_map, List.map_cons, List.map_map]
        congr 1
        · simp
        · apply List.map_congr_left
          intro i _
          have : start + sc + i * sc = start + (i + 1) * sc := by ring
          simp [Function.comp, this]
      · have hmin : min (start + sc) audio.length - start
            = audio.length - start := by omega
        rw [hmin, if_neg (by omega)]
        rw [ih (start + sc) (by omega)]
        have h1 : audio.length - (start + sc) = 0 := by omega
        have h2 : (audio.length - start) / sc = 0 :=
          Nat.div_eq_of_lt (by omega)
        rw [h1, h2, Nat.zero_div]
        simp
    · simp only [chunkAux, if_neg hs]
      have h0 : audio.length - start = 0 := by omega
      rw [h0, Nat.zero_div]
      simp

theorem chunkList_eq (audio : List V) (sc : ℕ) (hsc : 0 < sc) :
    chunkList audio sc
      = (List.range (audio.length / sc)).map
          (fun i => (audio.drop (i * sc)).take sc) := by
  simp only [chunkList]
  by_cases h1 : audio.length = sc
  · rw [if_pos h1, h1, Nat.div_self hsc]
    have hr : List.range 1 = [0] := by decide
    rw [hr]
    simp only [List.map_cons, List.map_nil, Nat.zero_mul, List.drop_zero]
    rw [← h1, List.take_length]
  · rw [if_neg h1]
    by_cases h2 : sc < audio.length
    · rw [if_pos h2, chunkAux_eq sc hsc audio audio.length 0 (by omega)]
      simp
    · rw [if_neg h2]
      have h3 : audio.length / sc = 0 := Nat.div_eq_of_lt (by omega)
      rw [h3]
      simp

end StoreLemmas

/-! ### Claims about the calibration store (src/lib.rs) -/

/-- C1: After any sequence of `AddSample` calls every label's stored sequence
has length at most the configured capacity (`mfcc_data_count`), and when the
feature vectors accepted under one label across the sequence number
`capacity + k`, that label's stored sequence is exactly the last `capacity`
vectors inserted, in insertion order (oldest excess dropped from the front,
survivors' relative order preserved). -/
theorem C1_capacity_bound_and_fifo_eviction {V : Type} (isFinite : V → Bool)
    (extract : List V → ℕ → ℕ → ℕ → List V) (s : PGState V)
    (calls : List (List V × String × ℕ)) (L : String) (k : ℕ)
    (hinv : ∀ p ∈ s.entries, p.2.length ≤ s.mfcc_data_count) :
    (∀ p ∈ (runAddSamples isFinite extract s calls).entries,
        p.2.length ≤ s.mfcc_data_count)
    ∧ ((∀ c ∈ calls, c.2.1 = L) →
        (runAccepted isFinite extract s calls).length
          = s.mfcc_data_count + k →
        (lookupEntry (runAddSamples isFinite extract s calls).entries
            L).getD []
          = (runAccepted isFinite extract s calls).drop k) := by
  constructor
  · exact runAddSamples_inv isFinite extract calls s hinv
  · intro hL hlen
    rw [runAddSamples_lookupD isFinite extract L calls s hL]
    have hl0 : ((lookupEntry s.entries L).getD []).length
        ≤ s.mfcc_data_count := by
      rcases hcur : lookupEntry s.entries L with _ | b
      · simp
      · simpa using hinv (L, b) (lookupEntry_mem s.entries L b hcur)
    rw [foldl_pushCap_eq_drop s.mfcc_data_count _ _ hl0, hlen]
    have harith : ((lookupEntry s.entries L).getD []).length
          + (s.mfcc_data_count + k) - s.mfcc_data_count
        = ((lookupEntry s.entries L).getD []).length + k := by omega
    rw [harith, List.drop_append_eq_append_drop,
      List.drop_eq_nil_of_le (by omega)]
    have h2 : ((lookupEntry s.entries L).getD []).length + k
        - ((lookupEntry s.entries L).getD []).length = k := by omega
    rw [h2, List.nil_append]

/-- Witness for C1: capacity 2, frame size 1, three accepted one-sample
vectors under label "a" — the stored entry is the last two, in order. -/
theorem C1_capacity_bound_and_fifo_eviction_witness :
    (lookupEntry (runAddSamples (fun (_ : ℤ) => true) (fun c _ _ _ => c)
          ⟨16000, 12, CompareMethod.l2Norm, [], 2, 1, false⟩
          [([5], "a", 1), ([6], "a", 1), ([7], "a", 1)]).entries "a").getD []
      = (runAccepted (fun (_ : ℤ) => true) (fun c _ _ _ => c)
          ⟨16000, 12, CompareMethod.l2Norm, [], 2, 1, false⟩
          [([5], "a", 1), ([6], "a", 1), ([7], "a", 1)]).drop 1 :=
  (C1_capacity_bound_and_fifo_eviction (fun (_ : ℤ) => true)
    (fun c _ _ _ => c) ⟨16000, 12, CompareMethod.l2Norm, [], 2, 1, false⟩
    [([5], "a", 1), ([6], "a", 1), ([7], "a", 1)] "a" 1
    (by simp)).2 (by decide) (by decide)

/-- C2: In every `add_sample` call a feature vector with any non-finite
element is skipped without raising an error: the entries after the call are
obtained by inserting exactly the vectors all of whose elements pass the
`is_finite` test, every accepted vector is all-finite, the call still
succeeds on non-empty audio, and a store whose vectors are all finite stays
all-finite. -/
theorem C2_nonfinite_vectors_never_stored {V : Type} (isFinite : V → Bool)
    (extract : List V → ℕ → ℕ → ℕ → List V) (s : PGState V) (audio : List V)
    (L : String) (r : ℕ) :
    (audio ≠ [] → (add_sample isFinite extract s audio L r).1.entries
        = (acceptedVecs isFinite extract s.sample_count s.target_sample_rate
              s.mel_filter_bank_channels audio r).foldl
            (fun es v => storeInsert s.mfcc_data_count es L v) s.entries)
    ∧ (∀ v ∈ acceptedVecs isFinite extract s.sample_count
          s.target_sample_rate s.mel_filter_bank_channels audio r,
        v.all isFinite = true)
    ∧ (audio ≠ [] →
        (add_sample isFinite extract s audio L r).2 = Except.ok ())
    ∧ ((∀ p ∈ s.entries, ∀ w ∈ p.2, w.all isFinite = true) →
        ∀ p ∈ (add_sample isFinite extract s audio L r).1.entries,
          ∀ w ∈ p.2, w.all isFinite = true) := by
  refine ⟨fun h => add_sample_entries isFinite extract s audio L r h,
    acceptedVecs_allFinite isFinite extract _ _ _ audio r,
    fun h => ?_, fun hwf => ?_⟩
  · have he : audio.isEmpty = false := by
      cases audio with
      | nil => exact absurd rfl h
      | cons a l => rfl
    simp [add_sample, he]
  · by_cases h : audio = []
    · have he : audio.isEmpty = true := by rw [h]; rfl
      simpa [add_sample, he] using hwf
    · rw [add_sample_entries isFinite extract s audio L r h]
      exact foldl_storeInsert_allFinite isFinite _ L _ s.entries
        (acceptedVecs_allFinite isFinite extract _ _ _ audio r) hwf

/-- Witness for C2: the extraction yields the vector `[7]`, which fails the
finiteness test `x ≠ 7`, so nothing is stored and the store stays
all-finite. -/
theorem C2_nonfinite_vectors_never_stored_witness :
    ∀ p ∈ (add_sample (fun (x : ℤ) => decide (x ≠ 7)) (fun c _ _ _ => c)
        ⟨16000, 12, CompareMethod.l2Norm, [], 16, 1, false⟩ [7] "a"
        44100).1.entries,
      ∀ w ∈ p.2, w.all (fun (x : ℤ) => decide (x ≠ 7)) = true :=
  (C2_nonfinite_vectors_never_stored (fun (x : ℤ) => decide (x ≠ 7))
    (fun c _ _ _ => c) ⟨16000, 12, CompareMethod.l2Norm, [], 16, 1, false⟩
    [7] "a" 44100).2.2.2 (by simp)

/-- C3: `add_sample` fails with `InvalidArg` exactly when the submitted audio
is empty, leaving the whole state (entries and configuration) untouched in
that case, and succeeds for every non-empty audio input. -/
theorem C3_invalid_argument_iff_empty_audio {V : Type} (isFinite : V → Bool)
    (extract : List V → ℕ → ℕ → ℕ → List V) (s : PGState V) (audio : List V)
    (L : String) (r : ℕ) :
    ((add_sample isFinite extract s audio L r).2
        = Except.error AddError.invalidArg ↔ audio = [])
    ∧ (audio = [] → add_sample isFinite extract s audio L r
        = (s, Except.error AddError.invalidArg))
    ∧ (audio ≠ [] →
        (add_sample isFinite extract s audio L r).2 = Except.ok ()) := by
  cases audio with
  | nil =>
    exact ⟨by simp [add_sample], fun _ => by simp [add_sample],
      fun h => absurd rfl h⟩
  | cons a l =>
    refine ⟨?_, fun h => by simp at h, fun _ => by simp [add_sample]⟩
    constructor
    · intro h
      simp [add_sample] at h
    · intro h
      simp at h

/-- Witness for C3: a one-sample audio input succeeds. -/
theorem C3_invalid_argument_iff_empty_audio_witness :
    (add_sample (fun (_ : ℤ) => true) (fun c _ _ _ => c)
        ⟨16000, 12, CompareMethod.l2Norm, [], 16, 1024, false⟩ [1] "a"
        44100).2 = Except.ok () :=
  (C3_invalid_argument_iff_empty_audio (fun (_ : ℤ) => true)
    (fun c _ _ _ => c) ⟨16000, 12, CompareMethod.l2Norm, [], 16, 1024, false⟩
    [1] "a" 44100).2.2 (by decide)

/-- C4: `finish` removes all entries while leaving every configuration field
unchanged, yields a document with no labels when the store is empty, and an
`add_sample` followed by `finish` after a previous `finish` reflects only the
data added after that previous `finish`. -/
theorem C4_finish_drains_store_keeps_config {V : Type} (isFinite : V → Bool)
    (extract : List V → ℕ → ℕ → ℕ → List V) (s : PGState V) (audio : List V)
    (L : String) (r : ℕ) (h : audio ≠ []) :
    (finish s).2 = { s with entries := [] }
    ∧ (s.entries = [] → (finish s).1.mfccs = [])
    ∧ (finish ((add_sample isFinite extract (finish s).2 audio L
          r).1)).1.mfccs
        = (acceptedVecs isFinite extract s.sample_count s.target_sample_rate
              s.mel_filter_bank_channels audio r).foldl
            (fun es v => storeInsert s.mfcc_data_count es L v) [] := by
  refine ⟨rfl, fun h0 => by simp [finish, h0], ?_⟩
  have h2 := add_sample_entries isFinite extract { s with entries := [] }
    audio L r h
  show (add_sample isFinite extract { s with entries := [] } audio L
      r).1.entries = _
  rw [h2]

/-- Witness for C4: pre-existing data under label "b" is dropped by the first
`finish`; the second document reflects only the new "a" data. -/
theorem C4_finish_drains_store_keeps_config_witness :
    (finish ((add_sample (fun (_ : ℤ) => true) (fun c _ _ _ => c)
        (finish (⟨16000, 12, CompareMethod.l2Norm, [("b", [[3]])], 16, 1,
          false⟩ : PGState ℤ)).2 [5] "a" 44100).1)).1.mfccs
      = (acceptedVecs (fun (_ : ℤ) => true) (fun c _ _ _ => c) 1 16000 12
          [5] 44100).foldl (fun es v => storeInsert 16 es "a" v) [] :=
  (C4_finish_drains_store_keeps_config (fun (_ : ℤ) => true)
    (fun c _ _ _ => c) (⟨16000, 12, CompareMethod.l2Norm, [("b", [[3]])], 16,
      1, false⟩ : PGState ℤ) [5] "a" 44100 (by decide)).2.2

/-- C5: Non-empty audio shorter than one frame yields zero feature vectors
and leaves the store unchanged while still succeeding; in general the audio
is segmented into exactly `floor(len / frameSize)` non-overlapping full
frames (each of exactly the frame size), the trailing remainder being
discarded, never padded. -/
theorem C5_frame_segmentation {V : Type} (isFinite : V → Bool)
    (extract : List V → ℕ → ℕ → ℕ → List V) (s : PGState V) (audio : List V)
    (L : String) (r : ℕ) (hsc : 0 < s.sample_count) :
    (audio ≠ [] → audio.length < s.sample_count →
      add_sample isFinite extract s audio L r = (s, Except.ok ()))
    ∧ chunkList audio s.sample_count
        = (List.range (audio.length / s.sample_count)).map
            (fun i => (audio.drop (i * s.sample_count)).take s.sample_count)
    ∧ (∀ c ∈ chunkList audio s.sample_count,
        c.length = s.sample_count) := by
  have hck := chunkList_eq audio s.sample_count hsc
  refine ⟨fun hne hlt => ?_, hck, fun c hc => ?_⟩
  · have he : audio.isEmpty = false := by
      cases audio with
      | nil => exact absurd rfl hne
      | cons a l => rfl
    have hnil : chunkList audio s.sample_count = [] := by
      rw [hck, Nat.div_eq_of_lt hlt]
      simp
    simp [add_sample, he, hnil]
  · rw [hck] at hc
    rcases List.mem_map.mp hc with ⟨i, hi, rfl⟩
    have hi' : i + 1 ≤ audio.length / s.sample_count := List.mem_range.mp hi
    have hmul : (i + 1) * s.sample_count ≤ audio.length :=
      le_trans (Nat.mul_le_mul_right _ hi') (Nat.div_mul_le_self _ _)
    have hx : (i + 1) * s.sample_count
        = i * s.sample_count + s.sample_count := by ring
    rw [hx] at hmul
    rw [List.length_take, List.length_drop]
    omega

/-! ### Helper lemmas for the DSP claims -/

theorem roundTiesEven_zero {K : Type} [LinearOrderedField K] [FloorRing K] :
    roundTiesEven (0 : K) = 0 := by
  norm_num [roundTiesEven]

theorem roundTiesEven_le_add_half {K : Type} [LinearOrderedField K]
    [FloorRing K] (x : K) : ((roundTiesEven x : ℤ) : K) ≤ x + 1 / 2 := by
  have hfl : ((⌊x⌋ : ℤ) : K) ≤ x := Int.floor_le x
  simp only [roundTiesEven]
  split
  · linarith
  · next h =>
    split
    · next h2 => push_cast; linarith
    · next h2 =>
      have hx : x - (⌊x⌋ : K) = 1 / 2 :=
        le_antisymm (not_lt.mp h2) (not_lt.mp h)
      split
      · linarith
      · push_cast; linarith

theorem getD_map_range {α : Type} (n j : ℕ) (f : ℕ → α) (d : α)
    (hj : j < n) : ((List.range n).map f).getD j d = f j := by
  rw [List.getD_eq_getElem _ _ (by simpa using hj), List.getElem_map,
    List.getElem_range]

theorem getD_set_self {α : Type} (l : List α) (i : ℕ) (a d : α)
    (h : i < l.length) : (l.set i a).getD i d = a := by
  rw [List.getD_eq_getD_get?, List.get?_eq_getElem?, List.getElem?_set_self h]
  rfl

theorem getD_set_ne {α : Type} (l : List α) (i j : ℕ) (a d : α)
    (h : i ≠ j) : (l.set i a).getD j d = l.getD j d := by
  rw [List.getD_eq_getD_get?, List.get?_eq_getElem?, List.getElem?_set_ne h,
    ← List.get?_eq_getElem?, ← List.getD_eq_getD_get?]

theorem pre_emphasis_loop {K : Type} [Ring K] (coeff : K) :
    ∀ (m : ℕ) (d : List K), m < d.length →
      ((((List.range' 1 m).reverse).foldl
          (fun d i => d.set i (d.getD i 0 - coeff * d.getD (i - 1) 0))
          d).length = d.length
      ∧ (∀ j, 1 ≤ j → j ≤ m →
          (((List.range' 1 m).reverse).foldl
              (fun d i => d.set i (d.getD i 0 - coeff * d.getD (i - 1) 0))
              d).getD j 0
            = d.getD j 0 - coeff * d.getD (j - 1) 0)
      ∧ (∀ j, j = 0 ∨ m < j →
          (((List.range' 1 m).reverse).foldl
              (fun d i => d.set i (d.getD i 0 - coeff * d.getD (i - 1) 0))
              d).getD j 0 = d.getD j 0)) := by
  intro m
  induction m with
  | zero =>
    intro d _
    exact ⟨rfl, fun j h1 h2 => by omega, fun j _ => rfl⟩
  | succ m ih =>
    intro d hm
    have hr : (List.range' 1 (m + 1)).reverse
        = (m + 1) :: (List.range' 1 m).reverse := by
      rw [List.range'_1_concat, List.reverse_append, List.reverse_singleton,
        List.singleton_append, Nat.add_comm]
    rw [hr]
    simp only [List.foldl_cons]
    set d1 := d.set (m + 1)
      (d.getD (m + 1) 0 - coeff * d.getD (m + 1 - 1) 0) with hd1
    have hlen1 : d1.length = d.length := by
      rw [hd1, List.length_set]
    obtain ⟨ihlen, ihmid, ihhigh⟩ := ih d1 (by omega)
    refine ⟨by rw [ihlen, hlen1], fun j hj1 hj2 => ?_, fun j hj => ?_⟩
    · by_cases hje : j = m + 1
      · subst hje
        rw [ihhigh (m + 1) (Or.inr (by omega)), hd1,
          getD_set_self d (m + 1) _ 0 hm]
      · have hjm : j ≤ m := by omega
        rw [ihmid j hj1 hjm, hd1, getD_set_ne d (m + 1) j _ 0 (by omega),
          getD_set_ne d (m + 1) (j - 1) _ 0 (by omega)]
    · rw [ihhigh j (by omega), hd1, getD_set_ne d (m + 1) j _ 0 (by omega)]

theorem pre_emphasis_spec {K : Type} [Ring K] (data : List K) (coeff : K) :
    (pre_emphasis data coeff).length = data.length
    ∧ (pre_emphasis data coeff).getD 0 0 = data.getD 0 0
    ∧ ∀ i, 1 ≤ i → i < data.length →
        (pre_emphasis data coeff).getD i 0
          = data.getD i 0 - coeff * data.getD (i - 1) 0 := by
  simp only [pre_emphasis]
  by_cases hnil : data.length = 0
  · have hd : data = [] := List.length_eq_zero.mp hnil
    subst hd
    exact ⟨rfl, rfl, fun i h1 h2 => by simp at h2⟩
  · have hm : data.length - 1 < data.length := by omega
    obtain ⟨h1, h2, h3⟩ := pre_emphasis_loop coeff (data.length - 1) data hm
    exact ⟨h1, h3 0 (Or.inl rfl), fun i hi1 hi2 => h2 i hi1 (by omega)⟩

/-- Witness for C5: frame size 3, two samples of audio — the call succeeds
and the state is unchanged. -/
theorem C5_frame_segmentation_witness :
    add_sample (fun (_ : ℤ) => true) (fun c _ _ _ => c)
        ⟨16000, 12, CompareMethod.l2Norm, [], 16, 3, false⟩ [1, 2] "a" 44100
      = (⟨16000, 12, CompareMethod.l2Norm, [], 16, 3, false⟩,
          Except.ok ()) :=
  (C5_frame_segmentation (fun (_ : ℤ) => true) (fun c _ _ _ => c)
    ⟨16000, 12, CompareMethod.l2Norm, [], 16, 3, false⟩ [1, 2] "a" 44100
    (by decide)).1 (by decide) (by decide)

/-! ### Claims about the DSP primitives (src/algorithm.rs) -/

/-- Counterexample to C6 as stated: at `inputRate = 500`,
`transitionRange = 500` (so `transitionRange/inputRate = 1` and
`round(3.1) = 3`), the adjustment `if ((n+1) % 2) == 0 { n += 1 }` turns the
odd `3` into `4`, so the kernel length actually used is `4` — not odd. -/
theorem C6_kernel_length_odd_counterexample :
    lowPassKernelLen (500 : ℚ) 500 = 4
    ∧ ¬ Odd (lowPassKernelLen (500 : ℚ) 500) := by
  have h : lowPassKernelLen (500 : ℚ) 500 = 4 := by
    norm_num [lowPassKernelLen, roundTiesEven, show Int.toNat 4 = 4 from rfl]
  exact ⟨h, by rw [h]; decide⟩

/-- C6 (amended): the FIR kernel length is `round(3.1 / (range/rate))`
incremented by one exactly when that rounding is odd, so the length of the
kernel array actually used by the convolution is always even (or zero) —
not odd as the specification claims. -/
theorem C6_kernel_length_forced_even {K : Type} [LinearOrderedField K]
    [FloorRing K] (sample_rate range : K) (sr cutoff rg : ℝ) :
    Even (lowPassKernelLen sample_rate range)
    ∧ (low_pass_filter_kernel_coeffs ((cutoff - rg) / sr)
          (lowPassKernelLen sr rg)).length = lowPassKernelLen sr rg := by
  constructor
  · have key2 : ∀ n0 : ℤ, Even (if (n0 + 1) % 2 = 0 then n0 + 1 else n0) := by
      intro n0
      split
      · next h0 => rwa [Int.even_iff]
      · next h0 =>
        rcases Int.even_or_odd n0 with h | h
        · exact h
        · exact absurd (Int.even_iff.mp (Odd.add_one h)) h0
    have key : ∀ n1 : ℤ, Even n1 → Even (if 0 < n1 then n1.toNat else 0) := by
      intro n1 hn1
      split
      · next hpos =>
        have hcast : ((n1.toNat : ℤ)) = n1 :=
          Int.toNat_of_nonneg (le_of_lt hpos)
        rw [← Int.even_coe_nat, hcast]
        exact hn1
      · exact even_zero
    simp only [lowPassKernelLen]
    exact key _ (key2 _)
  · simp only [low_pass_filter_kernel_coeffs, List.length_map,
      List.length_range]

/-- Counterexample to C7 as stated: for input `[0, 100, 0]` downsampled from
rate 3 to rate 2 (fractional ratio 1.5), output sample 1 has fractional index
1.5, and true linear interpolation between source samples 1 and 2 would give
50; the code returns 100 because both interpolation endpoints are the floored
index (`i1 = i0.min(len-1)`, not `i0 + 1`). -/
theorem C7_fractional_interpolation_counterexample :
    downsample ([0, 100, 0] : List ℚ) 3 2 = [0, 100]
    ∧ downsampleSpecInterp ([0, 100, 0] : List ℚ) 3 2 = [0, 50]
    ∧ downsample ([0, 100, 0] : List ℚ) 3 2
        ≠ downsampleSpecInterp ([0, 100, 0] : List ℚ) 3 2 := by
  have h1 : downsample ([0, 100, 0] : List ℚ) 3 2 = [0, 100] := by
    norm_num [downsample, roundTiesEven, List.range_succ]
    norm_num [show Int.toNat 2 = 2 from rfl, List.range_succ, List.range_zero,
      List.flatMap_cons, List.flatMap_nil]
  have h2 : downsampleSpecInterp ([0, 100, 0] : List ℚ) 3 2 = [0, 50] := by
    norm_num [downsampleSpecInterp, roundTiesEven, List.range_succ]
    norm_num [show Int.toNat 2 = 2 from rfl, List.range_succ, List.range_zero,
      List.flatMap_cons, List.flatMap_nil]
  refine ⟨h1, h2, ?_⟩
  rw [h1, h2]
  intro h
  injection h with h0 htail
  injection htail with h100 _
  norm_num at h100

/-- C7 (amended): in the fractional-ratio branch the output has length
`round(len/ratio)`, but each output sample `j` is *not* an interpolation
between two distinct source samples: both endpoints coincide at the floored
index, so output `j` equals the single source sample at index
`floor(ratio * j)`. -/
theorem C7_fractional_branch_no_interpolation {K : Type}
    [LinearOrderedField K] [FloorRing K] (input : List K)
    (sample_rate target_sample_rate : ℕ)
    (h1 : target_sample_rate < sample_rate)
    (h2 : ¬ target_sample_rate ∣ sample_rate) :
    (downsample input sample_rate target_sample_rate).length
      = (roundTiesEven ((input.length : K)
            / ((sample_rate : K) / (target_sample_rate : K)))).toNat
    ∧ ∀ j, j < (roundTiesEven ((input.length : K)
            / ((sample_rate : K) / (target_sample_rate : K)))).toNat →
        (downsample input sample_rate target_sample_rate).getD j 0
          = input.getD (⌊((sample_rate : K) / (target_sample_rate : K))
              * (j : K)⌋).toNat 0 := by
  have hne : ¬ sample_rate ≤ target_sample_rate := not_le.mpr h1
  constructor
  · simp only [downsample, if_neg hne, if_neg h2, List.length_map,
      List.length_range]
  · intro j hj
    by_cases htz : target_sample_rate = 0
    · exfalso
      subst htz
      rw [Nat.cast_zero, div_zero, div_zero, roundTiesEven_zero] at hj
      simp at hj
    · have htpos : (0 : K) < (target_sample_rate : K) := by
        exact_mod_cast Nat.pos_of_ne_zero htz
      simp only [downsample, if_neg hne, if_neg h2]
      set df := (sample_rate : K) / (target_sample_rate : K) with hdfdef
      have hdf1 : 1 < df := by
        rw [hdfdef, lt_div_iff₀ htpos, one_mul]
        exact_mod_cast h1
      have hdfpos : 0 < df := lt_trans zero_lt_one hdf1
      have hdfne : df ≠ 0 := ne_of_gt hdfpos
      set q := (input.length : K) / df with hqdef
      set R := roundTiesEven q with hRdef
      have hjR : (j : ℤ) < R := Int.lt_toNat.mp hj
      have hRK : ((R : ℤ) : K) ≤ q + 1 / 2 := roundTiesEven_le_add_half q
      have hjq : (j : K) ≤ q - 1 / 2 := by
        have hle : ((j : ℤ) : K) + 1 ≤ ((R : ℤ) : K) := by
          exact_mod_cast Int.add_one_le_iff.mpr hjR
        push_cast at hle
        linarith
      have hdq : df * q = (input.length : K) := by
        rw [hqdef]
        field_simp
      have hfi : df * (j : K) < (input.length : K) - 1 / 2 := by
        have hm : df * (j : K) ≤ df * (q - 1 / 2) :=
          mul_le_mul_of_nonneg_left hjq (le_of_lt hdfpos)
        have he : df * (q - 1 / 2) = (input.length : K) - df / 2 := by
          rw [mul_sub, hdq]; ring
        rw [he] at hm
        have hd2 : 1 / 2 ≤ df / 2 := by linarith
        linarith
      have hlenpos : 0 < input.length := by
        by_contra hl
        push_neg at hl
        have hl0 : input.length = 0 := by omega
        rw [hl0, Nat.cast_zero] at hfi
        have hge : (0 : K) ≤ df * (j : K) :=
          mul_nonneg (le_of_lt hdfpos) (by positivity)
        linarith
      have hfloor : ⌊df * (j : K)⌋ < (input.length : ℤ) := by
        rw [Int.floor_lt]
        push_cast
        linarith
      have hi0 : (⌊df * (j : K)⌋).toNat < input.length := by omega
      rw [getD_map_range _ j _ 0 hj]
      have hmin : min (⌊df * (j : K)⌋).toNat (input.length - 1)
          = (⌊df * (j : K)⌋).toNat := by omega
      rw [hmin]
      ring

/-- Witness for C7 (amended) at input `[0, 100, 0]`, rates 3 → 2, output
index 1: the output sample equals the source sample at the floored index. -/
theorem C7_fractional_branch_no_interpolation_witness :
    (downsample ([0, 100, 0] : List ℚ) 3 2).getD 1 0
      = ([0, 100, 0] : List ℚ).getD
          (⌊(((3 : ℕ) : ℚ) / ((2 : ℕ) : ℚ)) * ((1 : ℕ) : ℚ)⌋).toNat 0 :=
  (C7_fractional_branch_no_interpolation ([0, 100, 0] : List ℚ) 3 2
    (by norm_num) (by decide)).2 1
    (by norm_num [roundTiesEven, show Int.toNat 2 = 2 from rfl])

/-- C8: `pre_emphasis` leaves element 0 unchanged and sets
`out[i] = in[i] - coeff * in[i-1]` for `1 ≤ i < len`, each subtraction
reading the original (not-yet-modified) predecessor thanks to the
highest-to-lowest iteration order; on a constant input `x` this gives
`out[0] = x` and `out[i] = x * (1 - coeff)` for `i ≥ 1`. -/
theorem C8_pre_emphasis_reads_original_predecessor {K : Type} [CommRing K]
    (data : List K) (coeff x : K) (n i : ℕ) :
    (pre_emphasis data coeff).length = data.length
    ∧ (pre_emphasis data coeff).getD 0 0 = data.getD 0 0
    ∧ (1 ≤ i → i < data.length →
        (pre_emphasis data coeff).getD i 0
          = data.getD i 0 - coeff * data.getD (i - 1) 0)
    ∧ (0 < n → (pre_emphasis (List.replicate n x) coeff).getD 0 0 = x)
    ∧ (1 ≤ i → i < n →
        (pre_emphasis (List.replicate n x) coeff).getD i 0
          = x * (1 - coeff)) := by
  obtain ⟨ha, hb, hc⟩ := pre_emphasis_spec data coeff
  obtain ⟨ha', hb', hc'⟩ := pre_emphasis_spec (List.replicate n x) coeff
  refine ⟨ha, hb, fun hi1 hi2 => hc i hi1 hi2, fun hn => ?_,
    fun hi1 hi2 => ?_⟩
  · rw [hb', List.getD_eq_getElem _ _ (by simpa using hn)]
    simp
  · rw [hc' i hi1 (by simpa using hi2)]
    rw [List.getD_eq_getElem _ _ (by simp; omega),
      List.getD_eq_getElem _ _ (by simp; omega)]
    simp only [List.getElem_replicate]
    ring

/-- Witness for C8 at `[1, 2, 3]` with coefficient 1/2, index 1 (and the
constant sequence of five 7's at index 2). -/
theorem C8_pre_emphasis_reads_original_predecessor_witness :
    (pre_emphasis ([1, 2, 3] : List ℚ) (1 / 2)).getD 1 0
      = ([1, 2, 3] : List ℚ).getD 1 0
        - (1 / 2) * ([1, 2, 3] : List ℚ).getD 0 0 :=
  (C8_pre_emphasis_reads_original_predecessor ([1, 2, 3] : List ℚ) (1 / 2)
    7 5 1).2.2.1 (by norm_num) (by norm_num)

/-! ### Claims about the MFCC pipeline (src/mfcc.rs) -/

theorem listResize_length {α : Type} (l : List α) (n : ℕ) (v : α) :
    (listResize l n v).length = n := by
  simp only [listResize]
  split
  · rw [List.length_append, List.length_take, List.length_replicate]
    omega
  · next h => exact not_ne_iff.mp h

theorem dct_length (spectrum out : List ℝ) :
    (dct spectrum out).length = out.length := by
  simp [dct]

/-- C9: The emitted feature vector has length
`min(MFCC_SIZE, melFilterBankChannels - 1)` (cepstrum coefficient 0 is
dropped and at most 12 coefficients are taken), while `finish` writes the
fixed `mfccNum = MFCC_SIZE = 12` into the exported document; so whenever the
configured mel channel count is at most 12, the emitted vectors are strictly
shorter than the document's `mfccNum`. -/
theorem C9_feature_vector_length {V : Type}
    (process : List (ℝ × ℝ) → List (ℝ × ℝ)) (input : List ℝ)
    (isr tsr ch : ℕ) (pool : MfccBufferPool) (s : PGState V) :
    (extract_mfcc process input isr tsr ch pool).2.length
      = min MFCC_SIZE (ch - 1)
    ∧ (finish s).1.mfccNum = MFCC_SIZE
    ∧ (ch ≤ MFCC_SIZE →
        (extract_mfcc process input isr tsr ch pool).2.length
          < (finish s).1.mfccNum) := by
  have hlen : (extract_mfcc process input isr tsr ch pool).2.length
      = min MFCC_SIZE (ch - 1) := by
    simp only [extract_mfcc, List.length_take, List.length_drop, dct_length,
      listResize_length]
  refine ⟨hlen, rfl, fun h => ?_⟩
  rw [hlen]
  show min 12 (ch - 1) < 12
  have h12 : ch ≤ 12 := h
  omega

/-- Witness for C9: with 5 mel channels the emitted vector has length 4,
strictly shorter than the exported `mfccNum` of 12. -/
theorem C9_feature_vector_length_witness :
    (extract_mfcc id [1] 44100 16000 5 ⟨[], [], [], [], []⟩).2.length
      < (finish (⟨16000, 5, CompareMethod.l2Norm, [], 16, 1024, false⟩ :
          PGState ℤ)).1.mfccNum :=
  (C9_feature_vector_length id [1] 44100 16000 5 ⟨[], [], [], [], []⟩
    (⟨16000, 5, CompareMethod.l2Norm, [], 16, 1024, false⟩ :
      PGState ℤ)).2.2 (by decide)

/-- Counterexample to C10 as stated: with spectrum length 2 (a single usable
bin, `df = 8000` Hz), target sample rate 16000 and 12 mel channels — all
accepted by the pipeline — filter `n = 1` has
`f_begin = 700·(e^{L/13} − 1) ≈ 149.8` Hz and
`f_end = 700·(e^{3L/13} − 1) ≈ 552.3` Hz (`L = ln(87/7)`), both strictly
inside bin 0, so `i_begin = ⌈f_begin/df⌉ = 1` exceeds
`i_end = ⌊f_end/df⌋ = 0` and the `usize` subtraction `i_end - i_begin`
underflows. -/
theorem C10_bin_index_underflow_counterexample :
    (melFilterIndices 2 16000 12 1).2.2 < (melFilterIndices 2 16000 12 1).1 := by
  simp only [melFilterIndices, to_mel, to_hz, Bool.false_eq_true, if_false]
  norm_num
  have e3 : 1127 * Real.log ((87 : ℝ) / 7) / 13 * 3 / 1127
      = Real.log ((87 : ℝ) / 7) * 3 / 13 := by ring
  have e1 : 1127 * Real.log ((87 : ℝ) / 7) / 13 / 1127
      = Real.log ((87 : ℝ) / 7) / 13 := by ring
  rw [e3, e1]
  set L := Real.log ((87 : ℝ) / 7) with hLdef
  have hL : 0 < L := Real.log_pos (by norm_num)
  have hexp : Real.exp L = 87 / 7 := Real.exp_log (by norm_num)
  refine ⟨?_, hL⟩
  have hflo : ⌊(700 : ℝ) * (Real.exp (L * 3 / 13) - 1) / 8000⌋ = 0 := by
    rw [Int.floor_eq_zero_iff, Set.mem_Ico]
    constructor
    · have h1 : (1 : ℝ) ≤ Real.exp (L * 3 / 13) := by
        rw [← Real.exp_zero]
        exact Real.exp_le_exp.mpr (by linarith)
      linarith
    · have h2 : Real.exp (L * 3 / 13) < Real.exp L :=
        Real.exp_lt_exp.mpr (by linarith)
      rw [hexp] at h2
      linarith
  have hcei : ⌈(700 : ℝ) * (Real.exp (L / 13) - 1) / 8000⌉ = 1 := by
    rw [Int.ceil_eq_iff]
    constructor
    · have h1 : (1 : ℝ) < Real.exp (L / 13) := by
        rw [← Real.exp_zero]
        exact Real.exp_lt_exp.mpr (by linarith)
      push_cast
      linarith
    · have h2 : Real.exp (L / 13) < Real.exp L :=
        Real.exp_lt_exp.mpr (by linarith)
      rw [hexp] at h2
      push_cast
      linarith
  rw [hflo, hcei]
  norm_num

/-- C10 (amended): the begin/end bin indices of `mel_filter_bank` do *not*
satisfy `i_begin ≤ i_end` for every accepted sample rate and channel count
(the subtraction can underflow, see the counterexample); the guarantee that
does hold is for the first filter (`n = 0`): there `f_begin = to_hz 0 = 0`
gives `i_begin = 0`, so `i_end - i_begin` cannot underflow. -/
theorem C10_first_filter_no_underflow (len : ℕ) (sample_rate : ℝ)
    (mel_div : ℕ) :
    (melFilterIndices len sample_rate mel_div 0).1 = 0
    ∧ (melFilterIndices len sample_rate mel_div 0).1
        ≤ (melFilterIndices len sample_rate mel_div 0).2.2 := by
  have h1 : (melFilterIndices len sample_rate mel_div 0).1 = 0 := by
    simp only [melFilterIndices, to_mel, to_hz, Bool.false_eq_true, if_false]
    norm_num
  exact ⟨h1, by rw [h1]; exact Nat.zero_le _⟩

end ULipSync
